import Mathlib

/-!
Verification of the degreepath auditor core against its natural-language
specification.  Each Python class or function referenced by a claim is
shallowly embedded as an executable Lean definition; the theorems below
settle the claims of the specification against those definitions.

The repository holds two generations of the code base (`src/degreepath/`
and `src/dp/`); each definition's doc comment names the exact source file
and function it embeds.
-/

/-! ## Operators and `input_size_range` (src/degreepath/clause.py) -/

/-- Operator tokens of `src/degreepath/operator.py` (referenced by
`src/degreepath/clause.py`); only the comparison operators are relevant to
`input_size_range`, `In`/`NotIn` stand for the unsupported remainder. -/
inductive Operator where
  | EqualTo
  | NotEqualTo
  | LessThan
  | LessThanOrEqualTo
  | GreaterThan
  | GreaterThanOrEqualTo
  | In
  | NotIn
  deriving DecidableEq, Repr

/-- Python `range(lo, hi)` as a list of integers. -/
def pyRange (lo hi : Int) : List Int :=
  (List.range (hi - lo).toNat).map (fun k : Nat => lo + (k : Int))

/-- `SingleClause.input_size_range` (src/degreepath/clause.py lines 245-270).
`expected` is the clause's integer expected value; `none` models the
`TypeError` raised for unsupported operators.  The `.EqualTo` arm of the
inner match is unreachable (caught by the leading test). -/
def input_size_range (operator : Operator) (expected : Int) (at_most : Bool)
    (maximum : Int) : Option (List Int) :=
  if operator = .EqualTo ∨ (operator = .GreaterThanOrEqualTo ∧ at_most = true) then
    some (pyRange expected (expected + 1))
  else
    match operator with
    | .NotEqualTo =>
        some (pyRange 0 expected ++ pyRange (expected + 1) (max (expected + 1) (maximum + 1)))
    | .GreaterThanOrEqualTo =>
        some (pyRange expected (max (expected + 1) (maximum + 1)))
    | .GreaterThan =>
        some (pyRange (expected + 1) (max (expected + 2) (maximum + 1)))
    | .LessThan =>
        some (pyRange 0 expected)
    | .LessThanOrEqualTo =>
        some (pyRange 0 (expected + 1))
    | _ => none

/-- The comparison `n operator N` named by the claim, for the operators
`input_size_range` supports. -/
def satisfiesOp (operator : Operator) (n N : Int) : Prop :=
  match operator with
  | .EqualTo => n = N
  | .NotEqualTo => n ≠ N
  | .LessThan => n < N
  | .LessThanOrEqualTo => n ≤ N
  | .GreaterThan => N < n
  | .GreaterThanOrEqualTo => N ≤ n
  | _ => False

theorem mem_pyRange {lo hi n : Int} : n ∈ pyRange lo hi ↔ lo ≤ n ∧ n < hi := by
  simp only [pyRange, List.mem_map, List.mem_range]
  constructor
  · rintro ⟨k, hk, rfl⟩
    omega
  · intro h
    exact ⟨(n - lo).toNat, by omega, by omega⟩

theorem pyRange_single (N : Int) : pyRange N (N + 1) = [N] := by
  have h1 : (N + 1 - N).toNat = 1 := by omega
  simp [pyRange, h1, List.range_succ]

/-- C6: for every single clause with an integer expected value and every
maximum, `input_size_range` is sound (every yielded `n` satisfies
`n operator N`), complete up to the maximum (every cardinality `0 ≤ n ≤
maximum` consistent with the operator is yielded, except under the
`≥`-with-`at_most` special case), yields exactly `[N]` for `≥ N` with
`at_most` (and for `= N`), and yields exactly `0,1,…,N` for `≤ N`. -/
theorem input_size_range_spec (operator : Operator) (N maximum : Int) (at_most : Bool)
    (ys : List Int) (hy : input_size_range operator N at_most maximum = some ys) :
    (∀ n ∈ ys, satisfiesOp operator n N) ∧
    (∀ n : Int, 0 ≤ n → n ≤ maximum → satisfiesOp operator n N →
      ¬(operator = .GreaterThanOrEqualTo ∧ at_most = true) → n ∈ ys) ∧
    ((operator = .EqualTo ∨ (operator = .GreaterThanOrEqualTo ∧ at_most = true)) →
      ys = [N]) ∧
    (operator = .LessThanOrEqualTo → ys = pyRange 0 (N + 1)) := by
  cases operator with
  | EqualTo =>
      have hy2 : some (pyRange N (N + 1)) = some ys := hy
      injection hy2 with hy2
      subst hy2
      rw [pyRange_single]
      refine ⟨?_, ?_, fun _ => rfl, by simp⟩
      · intro n hn
        simp at hn
        simp [satisfiesOp, hn]
      · intro n _ _ hop _
        simp only [satisfiesOp] at hop
        simp [hop]
  | NotEqualTo =>
      have hy2 : some (pyRange 0 N ++ pyRange (N + 1) (max (N + 1) (maximum + 1))) =
          some ys := hy
      injection hy2 with hy2
      subst hy2
      refine ⟨?_, ?_, by simp, by simp⟩
      · intro n hn
        rcases List.mem_append.mp hn with h | h <;>
          · have := mem_pyRange.mp h
            simp only [satisfiesOp]
            omega
      · intro n h0 hm hop _
        simp only [satisfiesOp] at hop
        rcases lt_or_gt_of_ne hop with h | h
        · exact List.mem_append.mpr (Or.inl (mem_pyRange.mpr (by omega)))
        · refine List.mem_append.mpr (Or.inr (mem_pyRange.mpr ⟨by omega, ?_⟩))
          have := le_max_right (N + 1) (maximum + 1)
          omega
  | LessThan =>
      have hy2 : some (pyRange 0 N) = some ys := hy
      injection hy2 with hy2
      subst hy2
      refine ⟨?_, ?_, by simp, by simp⟩
      · intro n hn
        have := mem_pyRange.mp hn
        simp only [satisfiesOp]
        omega
      · intro n h0 _ hop _
        simp only [satisfiesOp] at hop
        exact mem_pyRange.mpr (by omega)
  | LessThanOrEqualTo =>
      have hy2 : some (pyRange 0 (N + 1)) = some ys := hy
      injection hy2 with hy2
      subst hy2
      refine ⟨?_, ?_, by simp, fun _ => rfl⟩
      · intro n hn
        have := mem_pyRange.mp hn
        simp only [satisfiesOp]
        omega
      · intro n h0 _ hop _
        simp only [satisfiesOp] at hop
        exact mem_pyRange.mpr (by omega)
  | GreaterThan =>
      have hy2 : some (pyRange (N + 1) (max (N + 2) (maximum + 1))) = some ys := hy
      injection hy2 with hy2
      subst hy2
      refine ⟨?_, ?_, by simp, by simp⟩
      · intro n hn
        have := mem_pyRange.mp hn
        simp only [satisfiesOp]
        omega
      · intro n h0 hm hop _
        simp only [satisfiesOp] at hop
        refine mem_pyRange.mpr ⟨by omega, ?_⟩
        have := le_max_right (N + 2) (maximum + 1)
        omega
  | GreaterThanOrEqualTo =>
      cases at_most with
      | true =>
          have hy2 : some (pyRange N (N + 1)) = some ys := hy
          injection hy2 with hy2
          subst hy2
          rw [pyRange_single]
          refine ⟨?_, ?_, fun _ => rfl, by simp⟩
          · intro n hn
            simp at hn
            simp [satisfiesOp, hn]
          · intro n _ _ _ hex
            exact absurd ⟨rfl, rfl⟩ hex
      | false =>
          have hy2 : some (pyRange N (max (N + 1) (maximum + 1))) = some ys := hy
          injection hy2 with hy2
          subst hy2
          refine ⟨?_, ?_, by simp, by simp⟩
          · intro n hn
            have := mem_pyRange.mp hn
            simp only [satisfiesOp]
            omega
          · intro n h0 hm hop _
            simp only [satisfiesOp] at hop
            refine mem_pyRange.mpr ⟨by omega, ?_⟩
            have := le_max_right (N + 1) (maximum + 1)
            omega
  | In => exact Option.noConfusion (show (none : Option (List Int)) = some ys from hy)
  | NotIn => exact Option.noConfusion (show (none : Option (List Int)) = some ys from hy)

/-- Witness for `input_size_range_spec`: `count ≤ 3` with maximum 10 yields
`0,1,2,3`, each of which satisfies `n ≤ 3`. -/
theorem input_size_range_spec_witness :
    input_size_range .LessThanOrEqualTo 3 false 10 = some [0, 1, 2, 3] ∧
    (∀ n ∈ [(0 : Int), 1, 2, 3], satisfiesOp .LessThanOrEqualTo n 3) := by
  have h : input_size_range .LessThanOrEqualTo 3 false 10 = some [0, 1, 2, 3] := by
    have h4 : ((3 : Int) + 1 - 0).toNat = 4 := by omega
    show some (pyRange 0 (3 + 1)) = some [0, 1, 2, 3]
    simp [pyRange, h4, List.range_succ]
  exact ⟨h, (input_size_range_spec .LessThanOrEqualTo 3 10 false [0, 1, 2, 3] h).1⟩

/-! ## Load-time key validation (src/degreepath/area.py, src/dp/limit.py) -/

/-- The allowed root keys of a specification document, exactly as listed in
`AreaOfStudy.load` (src/degreepath/area.py line 112).  Note that `major` is
among them. -/
def area_allowed_keys : List String :=
  ["name", "type", "major", "degree", "code", "emphases", "result", "requirements",
   "limit", "attributes"]

/-- The root-key assertion of `AreaOfStudy.load` (src/degreepath/area.py lines
112-114): `true` iff `given_keys.difference(allowed_keys)` is empty, i.e. the
assert does not fire. -/
def area_load_keys_ok (given_keys : List String) : Bool :=
  given_keys.all (fun k => area_allowed_keys.contains k)

/-- The recognized root-key set exactly as the claim states it (spec §6); it
lacks `major`. -/
def claimed_area_keys : List String :=
  ["name", "type", "code", "degree", "emphases", "result", "requirements", "limit",
   "attributes"]

/-- The allowed keys of a limit dictionary (src/dp/limit.py line 55). -/
def limit_allowed_keys : List String := ["at most", "at-most", "at_most", "where", "message"]

/-- The spellings of the at-most key probed by `Limit.load`
(src/dp/limit.py line 50). -/
def at_most_keys : List String := ["at most", "at-most", "at_most"]

/-- The key validation of `Limit.load` (src/dp/limit.py lines 48-57): raise if
no at-most key is given (line 52), then raise if a key outside the allowed set
is given (line 57).  `true` means neither check fires. -/
def limit_load_keys_ok (given_keys : List String) : Bool :=
  (given_keys.any (fun k => at_most_keys.contains k)) &&
    given_keys.all (fun k => limit_allowed_keys.contains k)

/-- C8 counterexample: a specification root whose keys are `major` and
`result` contains a key (`major`) outside the set the claim recognizes, and
yet `AreaOfStudy.load`'s key assertion does not fire. -/
theorem area_keys_claim_counterexample :
    area_load_keys_ok ["major", "result"] = true ∧
    claimed_area_keys.contains "major" = false := by
  constructor <;> rfl

/-- C8 amended: `AreaOfStudy.load`'s assertion fires whenever the root holds a
key outside `{name, type, major, degree, code, emphases, result, requirements,
limit, attributes}` (the code also allows `major`), and `Limit.load` raises
whenever a limit dictionary holds a key outside
`{at most, at-most, at_most, where, message}` or lacks an at-most key. -/
theorem load_unknown_keys_amended :
    (∀ given_keys : List String,
      (∃ k ∈ given_keys, area_allowed_keys.contains k = false) →
        area_load_keys_ok given_keys = false) ∧
    (∀ given_keys : List String,
      ((∃ k ∈ given_keys, limit_allowed_keys.contains k = false) ∨
        (∀ k ∈ given_keys, at_most_keys.contains k = false)) →
        limit_load_keys_ok given_keys = false) := by
  constructor
  · intro given_keys ⟨k, hk, hbad⟩
    rw [area_load_keys_ok, List.all_eq_false]
    exact ⟨k, hk, by simpa using hbad⟩
  · intro given_keys h
    rw [limit_load_keys_ok]
    rcases h with ⟨k, hk, hbad⟩ | hnone
    · have hall : given_keys.all (fun k => limit_allowed_keys.contains k) = false := by
        rw [List.all_eq_false]
        exact ⟨k, hk, by simpa using hbad⟩
      rw [hall, Bool.and_false]
    · have hany : given_keys.any (fun k => at_most_keys.contains k) = false := by
        rw [List.any_eq_false]
        intro k hk
        simpa using hnone k hk
      rw [hany, Bool.false_and]

/-- Witness for `load_unknown_keys_amended`: a root with the unknown key
`frobnicate` is rejected, and a limit dictionary without an at-most key is
rejected. -/
theorem load_unknown_keys_amended_witness :
    area_load_keys_ok ["name", "frobnicate"] = false ∧
    limit_load_keys_ok ["where"] = false :=
  ⟨load_unknown_keys_amended.1 ["name", "frobnicate"] ⟨"frobnicate", by simp, rfl⟩,
   load_unknown_keys_amended.2 ["where"] (Or.inr (by intro k hk; simp at hk; simp [hk, at_most_keys]))⟩

/-! ## Transcript lookup and course audit (src/degreepath/requirement.py,
src/degreepath/solution/course.py) -/

/-- Modelled from the spec: course status values (the `degreepath/data`
module is not in the source tree); §3 lists status flags and §4.4 the
not-taken outcome.  Only `DidNotComplete` and `NotTaken` are inspected by the
embedded code. -/
inductive CourseStatus where
  | Ok
  | InProgress
  | DidNotComplete
  | Repeated
  | NotTaken
  deriving DecidableEq, Repr

/-- Modelled from the spec: the slice of §3's CourseInstance used by
`find_course` (the `degreepath/data` module is not in the source tree):
the full course code (`course()`), the shorthand code
(`course_shorthand()`), and the status flag. -/
structure CourseInstance where
  course : String
  course_shorthand : String
  status : CourseStatus
  deriving DecidableEq, Repr

/-- `RequirementContext` (src/degreepath/requirement.py lines 18-23),
restricted to the transcript field that `find_course` reads. -/
structure RequirementContext where
  transcript : List CourseInstance
  deriving DecidableEq, Repr

/-- The predicate of the generator inside `find_course`
(src/degreepath/requirement.py lines 27-32). -/
def findCoursePred (c : String) (d : CourseInstance) : Bool :=
  d.status ≠ CourseStatus.DidNotComplete ∧ (d.course = c ∨ d.course_shorthand = c)

/-- `RequirementContext.find_course` (src/degreepath/requirement.py lines
25-34): the first transcript course that was not a DidNotComplete and whose
code or shorthand equals `c`, else `None`. -/
def RequirementContext.find_course (ctx : RequirementContext) (c : String) :
    Option CourseInstance :=
  ctx.transcript.find? (findCoursePred c)

/-- Modelled from the spec: `CourseResult` (src/degreepath/result lacks the
course module); §4.4's course-rule result carries the course code, a status
and a success flag, exactly the fields `CourseSolution.audit` constructs. -/
structure CourseResult where
  course : String
  status : CourseStatus
  success : Bool
  deriving DecidableEq, Repr

/-- `CourseSolution` (src/degreepath/solution/course.py lines 18-21),
restricted to the course code (the rule field does not affect `audit`). -/
structure CourseSolution where
  course : String
  deriving DecidableEq, Repr

/-- `CourseSolution.audit` (src/degreepath/solution/course.py lines 32-43). -/
def CourseSolution.audit (sol : CourseSolution) (ctx : RequirementContext) :
    CourseResult :=
  match ctx.find_course sol.course with
  | some found_course => ⟨sol.course, found_course.status, true⟩
  | none => ⟨sol.course, CourseStatus.NotTaken, false⟩

/-- C9: `find_course` returns the first transcript course that is not a
DidNotComplete and whose full code or shorthand equals `c`, and `none` iff no
such course exists; consequently a `CourseSolution` whose only matching
transcript entries are DidNotComplete audits to a failing result
(`success = false`, status `NotTaken`). -/
theorem find_course_spec (ctx : RequirementContext) (c : String) :
    (∀ d, ctx.find_course c = some d →
      findCoursePred c d = true ∧
      ∃ pre post, ctx.transcript = pre ++ d :: post ∧
        ∀ e ∈ pre, findCoursePred c e = false) ∧
    (ctx.find_course c = none ↔
      ∀ e ∈ ctx.transcript, ¬(e.status ≠ CourseStatus.DidNotComplete ∧
        (e.course = c ∨ e.course_shorthand = c))) ∧
    ((∀ e ∈ ctx.transcript, (e.course = c ∨ e.course_shorthand = c) →
        e.status = CourseStatus.DidNotComplete) →
      CourseSolution.audit ⟨c⟩ ctx = ⟨c, CourseStatus.NotTaken, false⟩) := by
  refine ⟨?_, ?_, ?_⟩
  · intro d hd
    obtain ⟨hpred, i, hlt, hget, hfirst⟩ := List.find?_eq_some_iff_getElem.mp hd
    refine ⟨hpred, ctx.transcript.take i, ctx.transcript.drop (i + 1), ?_, ?_⟩
    · rw [← hget, List.getElem_cons_drop, List.take_append_drop]
    · intro e he
      obtain ⟨j, hj, hje⟩ := List.mem_take_iff_getElem.mp he
      have hj2 : j < i := lt_of_lt_of_le hj (min_le_left _ _)
      rw [← hje]
      simpa using hfirst j hj2
  · rw [RequirementContext.find_course, List.find?_eq_none]
    constructor
    · intro h e he hbad
      have := h e he
      rw [findCoursePred] at this
      simp only [Bool.not_eq_true, decide_eq_false_iff_not] at this
      exact this hbad
    · intro h e he
      have := h e he
      rw [findCoursePred]
      simpa using this
  · intro hall
    have hnone : ctx.find_course c = none := by
      rw [RequirementContext.find_course, List.find?_eq_none]
      intro e he
      rw [findCoursePred]
      simp only [Bool.not_eq_true, decide_eq_false_iff_not]
      rintro ⟨hst, hcode⟩
      exact hst (hall e he hcode)
    rw [CourseSolution.audit]
    have : RequirementContext.find_course ctx c = none := hnone
    rw [this]

/-- Witness for `find_course_spec`: a transcript whose only `MATH 101` entry
is a DidNotComplete audits the `MATH 101` course solution to a failure. -/
theorem find_course_spec_witness :
    CourseSolution.audit ⟨"MATH 101"⟩
        ⟨[⟨"MATH 101", "MATH101", CourseStatus.DidNotComplete⟩]⟩ =
      ⟨"MATH 101", CourseStatus.NotTaken, false⟩ :=
  (find_course_spec ⟨[⟨"MATH 101", "MATH101", CourseStatus.DidNotComplete⟩]⟩ "MATH 101").2.2
    (by
      intro e he hc
      rw [List.mem_singleton] at he
      subst he
      rfl)

/-! ## Result trees: rank, max_rank, ok, status (src/dp/base/bases.py,
src/degreepath/result/requirement.py, src/degreepath/result/count.py,
src/dp/base/query.py) -/

/-- Result statuses: `Pass`/`Problem` are the degreepath-era statuses
(src/degreepath/result/requirement.py line 36), the rest are the dp-era
statuses used by `Base.status` and `BaseQueryRule.status`. -/
inductive ResultStatus where
  | Pass
  | Problem
  | Waived
  | Done
  | PendingCurrent
  | PendingRegistered
  | NeedsMoreItems
  | Empty
  deriving DecidableEq, Repr

/-- Modelled from the spec: `PassingStatuses` (src/dp/status.py is not in the
source tree); §6 gives `ok = true` iff the status is in
`{Pass, Waived, PendingCurrent, PendingRegistered}`, with `Done` as the
dp-era name of the done status (§4.5). -/
def PassingStatuses : List ResultStatus :=
  [.Pass, .Done, .Waived, .PendingCurrent, .PendingRegistered]

/-- Modelled from the spec: the data of one resolved assertion of a query
result (the dp-era `AssertionResult` class is not in the source tree); §3 and
§4.1 give each resolved assertion a boolean result, and §4.5 a rank fraction;
its rank, max rank and status are the only facts `BaseQueryRule` reads. -/
structure AssertionInfo where
  rank : Rat
  max_rank : Rat
  status : ResultStatus
  deriving DecidableEq, Repr

mutual
/-- One node of an audited result tree, one constructor per embedded class:
`base` is the dp-era `Base` default (src/dp/base/bases.py), `requirement` is
`RequirementResult` (src/degreepath/result/requirement.py; the fields not
read by `rank`/`max_rank`/`ok`/`status` are omitted), `count` is
`CountResult` (src/degreepath/result/count.py), and `query` is
`BaseQueryRule` (src/dp/base/query.py).  The optional child and the child
list are encoded in this mutual block so that all recursions are
structural. -/
inductive ResultT where
  | base (overridden : Bool)
  | requirement (overridden : Bool) (result : OptionResult)
  | count (of : ResultList)
  | query (overridden : Bool) (assertions : List AssertionInfo)

/-- `Optional[Base]`: the `result` field of a `RequirementResult`. -/
inductive OptionResult where
  | none
  | some (t : ResultT)

/-- `Tuple[Result, ...]`: the `of` field of a `CountResult`. -/
inductive ResultList where
  | nil
  | cons (hd : ResultT) (tl : ResultList)
end

/-- `Base.rank` (src/dp/base/bases.py lines 73-77): `(1, 1)` when waived
(`is_waived()` is `overridden`), else `(0, 1)`. -/
def Base.rankPair (overridden : Bool) : Rat × Rat :=
  if overridden then (1, 1) else (0, 1)

/-- `Base.status` (src/dp/base/bases.py lines 52-71).  The default `Base` has
`claims() = []`, so `matched()` is empty and the PendingCurrent /
PendingRegistered branches can never be taken; the remaining branches are
Waived when waived, else NeedsMoreItems when `rank < 1`, else Empty. -/
def Base.status (overridden : Bool) : ResultStatus :=
  if overridden then .Waived
  else if (Base.rankPair overridden).1 < 1 then .NeedsMoreItems
  else .Empty

/-- `BaseQueryRule.status` (src/dp/base/query.py lines 64-86): Waived when
waived, else the worst assertion status by the widening superset chain. -/
def queryStatus (overridden : Bool) (assertions : List AssertionInfo) : ResultStatus :=
  if overridden then .Waived
  else
    let statuses := assertions.map AssertionInfo.status
    if statuses.all (fun s => [ResultStatus.Done, .Waived].contains s) then .Done
    else if statuses.all (fun s => [ResultStatus.Done, .Waived, .PendingCurrent].contains s) then
      .PendingCurrent
    else if statuses.all
        (fun s => [ResultStatus.Done, .Waived, .PendingCurrent, .PendingRegistered].contains s) then
      .PendingRegistered
    else if statuses.all
        (fun s => [ResultStatus.Done, .Waived, .PendingCurrent, .PendingRegistered,
          .NeedsMoreItems].contains s) then
      .NeedsMoreItems
    else .Empty

mutual
/-- `ok()` of each embedded class: `Base.is_ok` (status in the passing set,
src/dp/base/bases.py lines 103-104) for `base` and `query`;
`RequirementResult.ok` (src/degreepath/result/requirement.py lines 53-58:
the override if overridden, else the child's `ok`, else `False`);
`CountResult.ok` (src/degreepath/result/count.py lines 30-31: all children
ok). -/
def ResultT.ok : ResultT → Bool
  | .base overridden => PassingStatuses.contains (Base.status overridden)
  | .requirement overridden result =>
      if overridden then true
      else
        match result with
        | .none => false
        | .some child => child.ok
  | .count of => of.okAll
  | .query overridden assertions => PassingStatuses.contains (queryStatus overridden assertions)

/-- `all(r.ok() for r in self.of)`. -/
def ResultList.okAll : ResultList → Bool
  | .nil => true
  | .cons hd tl => hd.ok && tl.okAll
end

mutual
/-- `rank()` of each embedded class: `Base.rank` first component
(src/dp/base/bases.py lines 73-77); `RequirementResult.rank`
(src/degreepath/result/requirement.py lines 60-62: child rank plus a boost of
1 when `ok()`, and 0 without a child); `CountResult.rank`
(src/degreepath/result/count.py lines 33-34: the sum of the children's
ranks); `BaseQueryRule.rank` (src/dp/base/query.py lines 58-62: 1 when
waived, else the sum of the assertion ranks). -/
def ResultT.rank : ResultT → Rat
  | .base overridden => (Base.rankPair overridden).1
  | .requirement _ .none => 0
  | .requirement overridden (.some child) =>
      child.rank + (if (ResultT.requirement overridden (.some child)).ok then 1 else 0)
  | .count of => of.rankSum
  | .query overridden assertions =>
      if overridden then 1 else (assertions.map AssertionInfo.rank).sum

/-- `sum(r.rank() for r in self.of)`. -/
def ResultList.rankSum : ResultList → Rat
  | .nil => 0
  | .cons hd tl => hd.rank + tl.rankSum
end

mutual
/-- `max_rank()` of each embedded class: `Base.rank` second component
(src/dp/base/bases.py lines 73-77); `RequirementResult.max_rank`
(src/degreepath/result/requirement.py lines 64-65: child max rank plus 1, and
0 without a child).  `CountResult` and `BaseQueryRule` define no `max_rank`
in the source tree; modelled from the spec: §8's
`rank = Σ rank(children) / Σ max_rank(children) · max_rank` relation applied
to their source `rank` (a plain sum over children / assertions) forces the
sum of the children's (assertions') max ranks, and §4.5's "Waived nodes
report rank = max_rank" forces 1 for a waived query. -/
def ResultT.max_rank : ResultT → Rat
  | .base overridden => (Base.rankPair overridden).2
  | .requirement _ .none => 0
  | .requirement _ (.some child) => child.max_rank + 1
  | .count of => of.maxRankSum
  | .query overridden assertions =>
      if overridden then 1 else (assertions.map AssertionInfo.max_rank).sum

/-- `sum(r.max_rank() for r in self.of)`. -/
def ResultList.maxRankSum : ResultList → Rat
  | .nil => 0
  | .cons hd tl => hd.max_rank + tl.maxRankSum
end

/-- `status()` of each embedded class: `Base.status` for `base`,
`RequirementResult.status` (src/degreepath/result/requirement.py lines 35-36:
Pass iff `ok()`, else Problem), `BaseQueryRule.status` for `query`;
`CountResult` (src/degreepath/result/count.py) defines no `status()`, hence
`none`. -/
def ResultT.status : ResultT → Option ResultStatus
  | .base overridden => some (Base.status overridden)
  | .requirement overridden result =>
      some (if (ResultT.requirement overridden result).ok then .Pass else .Problem)
  | .count _ => none
  | .query overridden assertions => some (queryStatus overridden assertions)

mutual
/-- Well-formedness of the spec-modelled assertion leaves: each resolved
assertion's rank is at most its max rank (§4.5: rank is a fraction of the
max). -/
def ResultT.assertionsOK : ResultT → Bool
  | .base _ => true
  | .requirement _ .none => true
  | .requirement _ (.some child) => child.assertionsOK
  | .count of => of.assertionsOKAll
  | .query _ assertions => assertions.all (fun a => decide (a.rank ≤ a.max_rank))

/-- Assertion well-formedness over a child list. -/
def ResultList.assertionsOKAll : ResultList → Bool
  | .nil => true
  | .cons hd tl => hd.assertionsOK && tl.assertionsOKAll
end

mutual
/-- Helper for C2, by mutual structural induction over result trees. -/
theorem ResultT.rank_le_aux : ∀ t : ResultT, t.assertionsOK = true → t.rank ≤ t.max_rank
  | .base overridden, _ => by
      simp only [ResultT.rank, ResultT.max_rank, Base.rankPair]
      split <;> norm_num
  | .requirement _ .none, _ => le_refl (0 : Rat)
  | .requirement overridden (.some child), h => by
      have ih := ResultT.rank_le_aux child h
      simp only [ResultT.rank, ResultT.max_rank]
      split <;> linarith
  | .count of, h => ResultList.rankSum_le_aux of h
  | .query overridden assertions, h => by
      simp only [ResultT.assertionsOK] at h
      simp only [ResultT.rank, ResultT.max_rank]
      split
      · exact le_refl 1
      · refine List.sum_le_sum ?_
        intro a ha
        exact of_decide_eq_true (List.all_eq_true.mp h a ha)

/-- Helper for C2: the children's rank sum is below their max-rank sum. -/
theorem ResultList.rankSum_le_aux :
    ∀ ts : ResultList, ts.assertionsOKAll = true → ts.rankSum ≤ ts.maxRankSum
  | .nil, _ => le_refl (0 : Rat)
  | .cons hd tl, h => by
      simp only [ResultList.assertionsOKAll, Bool.and_eq_true] at h
      have h1 := ResultT.rank_le_aux hd h.1
      have h2 := ResultList.rankSum_le_aux tl h.2
      simp only [ResultList.rankSum, ResultList.maxRankSum]
      exact add_le_add h1 h2
end

/-- C2: every node of every audited result tree (whose spec-modelled
assertion leaves are well formed) has `rank ≤ max_rank`. -/
theorem audited_rank_le_max_rank (t : ResultT) (h : t.assertionsOK = true) :
    t.rank ≤ t.max_rank :=
  ResultT.rank_le_aux t h

/-- Witness for `audited_rank_le_max_rank`: a count of one waived base node
and one empty requirement. -/
theorem audited_rank_le_max_rank_witness :
    (ResultT.count (.cons (.base true) (.cons (.requirement false .none) .nil))).assertionsOK
      = true ∧
    (ResultT.count (.cons (.base true) (.cons (.requirement false .none) .nil))).rank ≤
      (ResultT.count (.cons (.base true) (.cons (.requirement false .none) .nil))).max_rank :=
  ⟨rfl, audited_rank_le_max_rank
    (ResultT.count (.cons (.base true) (.cons (.requirement false .none) .nil))) rfl⟩

/-- C3 counterexample: the count of two passing requirement nodes (each
wrapping an empty count) has rank 2 and max rank 2 — its rank is the plain
sum of the children's ranks, its own max rank is not 1, and its rank is not
in `[0, 1]`. -/
theorem count_rank_not_normalized_cex :
    (ResultT.count (.cons (.requirement false (.some (.count .nil)))
        (.cons (.requirement false (.some (.count .nil))) .nil))).rank = 2 ∧
    (ResultT.count (.cons (.requirement false (.some (.count .nil)))
        (.cons (.requirement false (.some (.count .nil))) .nil))).max_rank = 2 ∧
    ¬((ResultT.count (.cons (.requirement false (.some (.count .nil)))
        (.cons (.requirement false (.some (.count .nil))) .nil))).rank ≤ 1) := by
  have h1 : (ResultT.count (.cons (.requirement false (.some (.count .nil)))
      (.cons (.requirement false (.some (.count .nil))) .nil))).rank = 2 := by
    simp [ResultT.rank, ResultList.rankSum, ResultT.ok, ResultList.okAll]
    norm_num
  have h2 : (ResultT.count (.cons (.requirement false (.some (.count .nil)))
      (.cons (.requirement false (.some (.count .nil))) .nil))).max_rank = 2 := by
    simp [ResultT.max_rank, ResultList.maxRankSum]
    norm_num
  refine ⟨h1, h2, ?_⟩
  rw [h1]
  norm_num

/-- C3 amended: a Count result's rank is the plain sum of its children's
ranks and its max rank the sum of their max ranks (so the spec's ratio
formula holds with the node's own max rank equal to that sum — not 1 —
whenever the denominator is nonzero); a Requirement result's rank is its
child's rank plus a boost of 1 exactly when it is ok, with max rank the
child's plus 1; a non-waived query's rank is the sum of its assertion ranks.
Ranks are exact rationals but are not normalized into `[0, 1]`. -/
theorem rank_aggregation_amended :
    (∀ of : ResultList, (ResultT.count of).rank = of.rankSum ∧
      (ResultT.count of).max_rank = of.maxRankSum) ∧
    (∀ of : ResultList, of.maxRankSum ≠ 0 →
      (ResultT.count of).rank = of.rankSum / of.maxRankSum * (ResultT.count of).max_rank) ∧
    (∀ (overridden : Bool) (child : ResultT),
      (ResultT.requirement overridden (.some child)).rank =
        child.rank + (if (ResultT.requirement overridden (.some child)).ok then 1 else 0) ∧
      (ResultT.requirement overridden (.some child)).max_rank = child.max_rank + 1) ∧
    (∀ assertions : List AssertionInfo,
      (ResultT.query false assertions).rank = (assertions.map AssertionInfo.rank).sum) := by
  refine ⟨fun of => ⟨rfl, rfl⟩, ?_, fun overridden child => ⟨rfl, rfl⟩, fun assertions => rfl⟩
  intro of h
  show of.rankSum = of.rankSum / of.maxRankSum * of.maxRankSum
  rw [div_mul_cancel₀ _ h]

/-- Witness for `rank_aggregation_amended`: the ratio form at a count of one
non-waived base node, whose max-rank sum is 1. -/
theorem rank_aggregation_amended_witness :
    (ResultT.count (.cons (.base false) .nil)).rank =
      (ResultList.cons (.base false) .nil).rankSum /
        (ResultList.cons (.base false) .nil).maxRankSum *
        (ResultT.count (.cons (.base false) .nil)).max_rank :=
  rank_aggregation_amended.2.1 (.cons (.base false) .nil)
    (by simp [ResultList.maxRankSum, ResultT.max_rank, Base.rankPair])

/-- C4 counterexample: a requirement result with no child and no override has
`rank = max_rank` (both 0) and yet its status is Problem, not Pass. -/
theorem requirement_pass_iff_rank_cex :
    (ResultT.requirement false .none).rank = (ResultT.requirement false .none).max_rank ∧
    (ResultT.requirement false .none).status ≠ some ResultStatus.Pass := by
  constructor
  · rfl
  · have h : (ResultT.requirement false .none).status = some ResultStatus.Problem := rfl
    rw [h]
    intro hcontra
    exact ResultStatus.noConfusion (Option.some.inj hcontra)

/-- C4 amended: a RequirementResult's status is Pass exactly when its `ok()`
is true — for a non-overridden node, exactly when it has a child result and
the child is ok; `rank = max_rank` is neither necessary nor sufficient.  The
dp-era `Base.status` never yields Pass. -/
theorem requirement_status_amended :
    (∀ (overridden : Bool) (result : OptionResult),
      (ResultT.requirement overridden result).status = some ResultStatus.Pass ↔
        (ResultT.requirement overridden result).ok = true) ∧
    (∀ result : OptionResult,
      (ResultT.requirement false result).status = some ResultStatus.Pass ↔
        ∃ child, result = .some child ∧ child.ok = true) ∧
    (∀ overridden : Bool, (ResultT.base overridden).status ≠ some ResultStatus.Pass) := by
  have hmain : ∀ (overridden : Bool) (result : OptionResult),
      (ResultT.requirement overridden result).status = some ResultStatus.Pass ↔
        (ResultT.requirement overridden result).ok = true := by
    intro overridden result
    simp only [ResultT.status]
    cases hok : (ResultT.requirement overridden result).ok <;> simp [hok]
  refine ⟨hmain, ?_, ?_⟩
  · intro result
    rw [hmain false result]
    cases result with
    | none =>
        have h : (ResultT.requirement false .none).ok = false := rfl
        rw [h]
        constructor
        · intro hcontra
          exact Bool.noConfusion hcontra
        · rintro ⟨child, hchild, _⟩
          exact OptionResult.noConfusion hchild
    | some child =>
        have hok : (ResultT.requirement false (.some child)).ok = child.ok := rfl
        rw [hok]
        constructor
        · intro h
          exact ⟨child, rfl, h⟩
        · rintro ⟨c, hc, hcok⟩
          obtain rfl : child = c := by injection hc
          exact hcok
  · intro overridden
    cases overridden with
    | true =>
        intro h
        have hs : (ResultT.base true).status = some ResultStatus.Waived := by
          simp [ResultT.status, Base.status]
        rw [hs] at h
        exact ResultStatus.noConfusion (Option.some.inj h)
    | false =>
        intro h
        have hs : (ResultT.base false).status = some ResultStatus.NeedsMoreItems := by
          simp [ResultT.status, Base.status, Base.rankPair]
        rw [hs] at h
        exact ResultStatus.noConfusion (Option.some.inj h)

/-! ## Requirement rule solutions (src/degreepath/requirement.py) -/

/-- The child rule of a `Requirement` (src/degreepath/requirement.py), seen
through the only interface `Requirement.solutions` uses: its stream of
solutions for the ambient context, with solutions of type `α`. -/
structure ChildRule (α : Type) where
  solutionsList : List α

/-- `Requirement` (src/degreepath/requirement.py lines 60-68), restricted to
the fields `solutions` and the audit read (`saves`/`requirements`/`contract`
only feed the child context and metadata). -/
structure RequirementRule (α : Type) where
  name : String
  message : Option String := none
  audited_by : Option String := none
  result : Option (ChildRule α)

/-- `RequirementSolution` (src/degreepath/requirement.py lines 194-203),
restricted to the fields produced by `from_requirement` that `audit` and
`ok` read. -/
structure RequirementSolution (α : Type) where
  name : String
  message : Option String
  audited_by : Option String
  result : Option α
  inputs : List (String × Nat)

/-- `Requirement.solutions` (src/degreepath/requirement.py lines 149-182):
with no result, yield a single solution wrapping nothing; otherwise yield one
wrapped solution per solution of the child rule, tagged with its index.  The
`audited_by` flag is not consulted. -/
def Requirement.solutions {α : Type} (r : RequirementRule α) : List (RequirementSolution α) :=
  match r.result with
  | none => [⟨r.name, r.message, r.audited_by, none, []⟩]
  | some child =>
      child.solutionsList.enum.map
        (fun p => ⟨r.name, r.message, r.audited_by, some p.2, [(r.name, p.1)]⟩)

/-- `RequirementResult` (src/degreepath/requirement.py lines 268-277),
restricted to the fields `ok` reads. -/
structure LegacyRequirementResult (β : Type) where
  name : String
  audited_by : Option String
  result : Option β

/-- `RequirementResult.ok` (src/degreepath/requirement.py lines 321-327):
true whenever `audited_by` is set, else the child result's `ok`, else false.
`okChild` is the dynamic dispatch of `self.result.ok()`. -/
def LegacyRequirementResult.ok {β : Type} (okChild : β → Bool)
    (r : LegacyRequirementResult β) : Bool :=
  if r.audited_by.isSome then true
  else
    match r.result with
    | none => false
    | some res => okChild res

/-- `RequirementSolution.audit` (src/degreepath/requirement.py lines
258-265): wrap the audited child result (if any), keeping `audited_by`.
`auditChild` is the dynamic dispatch of `self.result.audit(...)`. -/
def RequirementSolution.audit {α β : Type} (auditChild : α → β)
    (rs : RequirementSolution α) : LegacyRequirementResult β :=
  match rs.result with
  | none => ⟨rs.name, rs.audited_by, none⟩
  | some s => ⟨rs.name, rs.audited_by, some (auditChild s)⟩

/-- A `department_audited` requirement whose child rule has two solutions. -/
def auditedTwoSolutionReq : RequirementRule Nat :=
  { name := "R", audited_by := some "department", result := some ⟨[0, 1]⟩ }

/-- C7 counterexample: a Requirement marked `department_audited` whose child
rule has two solutions yields two solutions, not a single one — the child's
solutions are enumerated despite the audit flag. -/
theorem audited_requirement_cex :
    auditedTwoSolutionReq.audited_by = some "department" ∧
    (Requirement.solutions auditedTwoSolutionReq).length = 2 ∧
    (Requirement.solutions auditedTwoSolutionReq).length ≠ 1 := by
  refine ⟨rfl, rfl, ?_⟩
  intro h
  rw [show (Requirement.solutions auditedTwoSolutionReq).length = 2 from rfl] at h
  exact Nat.noConfusion (Nat.succ.inj h)

/-- C7 amended: a Requirement rule enumerates its child rule's solutions
even when marked `department_audited` or `registrar_audited` (one wrapped
solution per child solution, and exactly one solution only when it has no
child result); every audited result of such a requirement is passing
(`ok()` returns true) regardless of the child and of the transcript. -/
theorem audited_requirement_amended {α β : Type} (r : RequirementRule α)
    (auditChild : α → β) (okChild : β → Bool) :
    (r.result = none →
      Requirement.solutions r = [⟨r.name, r.message, r.audited_by, none, []⟩]) ∧
    (∀ child, r.result = some child →
      (Requirement.solutions r).length = child.solutionsList.length) ∧
    (r.audited_by.isSome = true →
      ∀ sol ∈ Requirement.solutions r,
        (sol.audit auditChild).ok okChild = true) := by
  refine ⟨?_, ?_, ?_⟩
  · intro h
    rw [Requirement.solutions, h]
  · intro child h
    rw [Requirement.solutions, h]
    simp
  · intro haud sol hsol
    have hsa : sol.audited_by = r.audited_by := by
      rw [Requirement.solutions] at hsol
      cases hr : r.result with
      | none =>
          rw [hr] at hsol
          rw [List.mem_singleton] at hsol
          subst hsol
          rfl
      | some child =>
          rw [hr] at hsol
          obtain ⟨p, _, rfl⟩ := List.mem_map.mp hsol
          rfl
    have hra : (sol.audit auditChild).audited_by = sol.audited_by := by
      rw [RequirementSolution.audit]
      cases sol.result <;> rfl
    rw [LegacyRequirementResult.ok, hra, hsa, haud]
    rfl

/-- Witness for `audited_requirement_amended`: a registrar-audited empty
requirement yields one solution, and its audit is ok on any transcript. -/
theorem audited_requirement_amended_witness :
    Requirement.solutions
        ({ name := "W", audited_by := some "registrar", result := none } :
          RequirementRule Nat) =
      [⟨"W", none, some "registrar", none, []⟩] ∧
    ∀ sol ∈ Requirement.solutions
        ({ name := "W", audited_by := some "registrar", result := none } :
          RequirementRule Nat),
      (sol.audit (fun n : Nat => n)).ok (fun _ => false) = true :=
  ⟨(audited_requirement_amended _ (fun n : Nat => n) (fun _ => false)).1 rfl,
   (audited_requirement_amended _ (fun n : Nat => n) (fun _ => false)).2.2 rfl⟩

/-! ## Path tuple ordering (src/dp/base/bases.py) -/

/-- Value of a single decimal digit character. -/
def digitVal (c : Char) : Option Nat :=
  if c.isDigit then some (c.toNat - '0'.toNat) else none

/-- Left-to-right accumulation of decimal digits. -/
def digitsValGo (acc : Nat) : List Char → Option Nat
  | [] => some acc
  | c :: cs =>
      match digitVal c with
      | some d => digitsValGo (acc * 10 + d) cs
      | none => none

/-- Python `int(...)` on the digit strings the path builder emits: the value
of a nonempty all-digit character list, `none` otherwise (where Python's
`int` raises; Python also accepts signs and whitespace, which never occur in
path segments). -/
def digitsVal : List Char → Option Nat
  | [] => none
  | cs => digitsValGo 0 cs

/-- The index conversion of `compare_path_tuples__lt` (src/dp/base/bases.py
lines 212-215): for a segment starting with `[`, Python runs
`int(a[1:-1])`; this returns its value, or `none` when the segment does not
start with `[` (the segment stays a string) or the slice is not numeric
(where Python raises a `ValueError`). -/
def bracketParse (s : String) : Option Nat :=
  match s.data with
  | '[' :: rest => digitsVal rest.dropLast
  | _ => none

/-- A path segment as compared by the loop of `compare_path_tuples__lt`:
either the parsed integer of a `[N]` segment or the segment string itself.
A `[…]` segment whose inside is not numeric makes Python raise; here it
stays a string (such segments are excluded by `canonSeg` below). -/
def bracketNorm (s : String) : Nat ⊕ String :=
  match bracketParse s with
  | some n => Sum.inl n
  | none => Sum.inr s

/-- The element comparison of the loop of `compare_path_tuples__lt`
(src/dp/base/bases.py lines 218-231) on two already-converted unequal
values: same-type values compare by `<`, and an `int` sorts before a
`str`. -/
def pathElemLt : Nat ⊕ String → Nat ⊕ String → Bool
  | .inl m, .inl n => decide (m < n)
  | .inr x, .inr y => decide (x < y)
  | .inl _, .inr _ => true
  | .inr _, .inl _ => false

/-- The `zip` loop of `compare_path_tuples__lt` (src/dp/base/bases.py lines
210-233), reached when the tuples have equal length: convert both heads; on
equality continue with the tails; otherwise decide by the converted values
(`a < b` for same types, `int` before `str`); an exhausted loop returns
`True`. -/
def comparePathZip : List String → List String → Bool
  | a :: as, b :: bs =>
      match bracketNorm a, bracketNorm b with
      | .inl m, .inl n => if m = n then comparePathZip as bs else decide (m < n)
      | .inr x, .inr y => if x = y then comparePathZip as bs else decide (x < y)
      | .inl _, .inr _ => true
      | .inr _, .inl _ => false
  | _, _ => true

/-- `compare_path_tuples__lt` (src/dp/base/bases.py lines 180-233): a
shorter tuple sorts before a longer one; equal-length tuples compare by the
element loop. -/
def compare_path_tuples__lt (path_a path_b : List String) : Bool :=
  if path_a.length < path_b.length then true
  else if path_b.length < path_a.length then false
  else comparePathZip path_a path_b

/-- `compare_path_tuples` (src/dp/base/bases.py lines 165-174), on the path
tuples of the two nodes: 0 on equal paths, -1 when less-than, else 1. -/
def compare_path_tuples (a b : List String) : Int :=
  if a = b then 0
  else if compare_path_tuples__lt a b then -1
  else 1

/-- A canonically spelled path segment: if its bracket body parses to `n`,
it is literally `[n]` with no leading zeros or signs (the form
`f"[{i}]"` in the path builders emits), and a segment starting with `[`
must parse (Python raises otherwise). -/
def canonSeg (s : String) : Bool :=
  match s.data with
  | '[' :: _ =>
      match bracketParse s with
      | some n => decide (s = "[" ++ toString n ++ "]")
      | none => false
  | _ => true

theorem comparePathZip_cons (x y : String) (xs ys : List String) :
    comparePathZip (x :: xs) (y :: ys) =
      if bracketNorm x = bracketNorm y then comparePathZip xs ys
      else pathElemLt (bracketNorm x) (bracketNorm y) := by
  rw [comparePathZip]
  cases hx : bracketNorm x <;> cases hy : bracketNorm y <;>
    simp [pathElemLt] <;>
    split <;> simp_all

theorem pathElemLt_trans {x y z : Nat ⊕ String} (h1 : pathElemLt x y = true)
    (h2 : pathElemLt y z = true) : pathElemLt x z = true := by
  cases x <;> cases y <;> cases z <;> simp_all [pathElemLt]
  · omega
  · exact lt_trans h1 h2

theorem pathElemLt_total {x y : Nat ⊕ String} (h : x ≠ y) :
    pathElemLt x y = true ∨ pathElemLt y x = true := by
  cases x with
  | inl m =>
      cases y with
      | inl n =>
          have hmn : m ≠ n := fun hc => h (by rw [hc])
          rcases lt_or_gt_of_ne hmn with hlt | hgt
          · exact Or.inl (by simp [pathElemLt, hlt])
          · exact Or.inr (by simp [pathElemLt, hgt])
      | inr _ => exact Or.inl rfl
  | inr a =>
      cases y with
      | inl _ => exact Or.inr rfl
      | inr b =>
          have hab : a ≠ b := fun hc => h (by rw [hc])
          rcases lt_or_gt_of_ne hab with hlt | hgt
          · exact Or.inl (by simp [pathElemLt, hlt])
          · exact Or.inr (by simp [pathElemLt, hgt])

theorem pathElemLt_asymm {x y : Nat ⊕ String} (h1 : pathElemLt x y = true)
    (h2 : pathElemLt y x = true) : False := by
  cases x <;> cases y <;> simp_all [pathElemLt]
  · omega
  · exact absurd h2 (lt_asymm h1)

theorem comparePathZip_total : ∀ a b : List String,
    comparePathZip a b = true ∨ comparePathZip b a = true
  | [], [] => Or.inl rfl
  | [], _ :: _ => Or.inl rfl
  | _ :: _, [] => Or.inr rfl
  | x :: xs, y :: ys => by
      rw [comparePathZip_cons, comparePathZip_cons]
      by_cases hxy : bracketNorm x = bracketNorm y
      · rw [if_pos hxy, if_pos hxy.symm]
        exact comparePathZip_total xs ys
      · rw [if_neg hxy, if_neg (fun hc => hxy hc.symm)]
        exact pathElemLt_total hxy

theorem comparePathZip_trans : ∀ a b c : List String,
    a.length = b.length → b.length = c.length →
    comparePathZip a b = true → comparePathZip b c = true → comparePathZip a c = true
  | [], _, c, _, _, _, _ => by
      cases c <;> rfl
  | _ :: _, [], _, hab, _, _, _ => by
      exact absurd hab (by simp)
  | _ :: _, _ :: _, [], _, hbc, _, _ => by
      exact absurd hbc (by simp)
  | x :: xs, y :: ys, z :: zs, hab, hbc, h1, h2 => by
      rw [comparePathZip_cons] at h1 h2 ⊢
      simp only [List.length_cons, Nat.add_right_cancel_iff] at hab hbc
      by_cases hxy : bracketNorm x = bracketNorm y
      · rw [if_pos hxy] at h1
        by_cases hyz : bracketNorm y = bracketNorm z
        · rw [if_pos hyz] at h2
          rw [if_pos (hxy.trans hyz)]
          exact comparePathZip_trans xs ys zs hab hbc h1 h2
        · rw [if_neg hyz] at h2
          have hxz : bracketNorm x ≠ bracketNorm z := fun hc => hyz (hxy ▸ hc)
          rw [if_neg hxz, hxy]
          exact h2
      · rw [if_neg hxy] at h1
        by_cases hyz : bracketNorm y = bracketNorm z
        · have hxz : bracketNorm x ≠ bracketNorm z := fun hc => hxy (hc.trans hyz.symm)
          rw [if_neg hxz, ← hyz]
          exact h1
        · rw [if_neg hyz] at h2
          by_cases hxz : bracketNorm x = bracketNorm z
          · exact absurd (hxz ▸ h1) (fun hzy => pathElemLt_asymm hzy h2)
          · rw [if_neg hxz]
            exact pathElemLt_trans h1 h2

theorem comparePathZip_asymm : ∀ a b : List String, a.length = b.length →
    a.map bracketNorm ≠ b.map bracketNorm →
    ¬(comparePathZip a b = true ∧ comparePathZip b a = true)
  | [], [], _, hne, _ => hne rfl
  | _ :: _, [], hab, _, _ => by exact absurd hab (by simp)
  | [], _ :: _, hab, _, _ => by exact absurd hab (by simp)
  | x :: xs, y :: ys, hab, hne, ⟨h1, h2⟩ => by
      rw [comparePathZip_cons] at h1 h2
      simp only [List.length_cons, Nat.add_right_cancel_iff] at hab
      by_cases hxy : bracketNorm x = bracketNorm y
      · rw [if_pos hxy] at h1
        rw [if_pos hxy.symm] at h2
        have htne : xs.map bracketNorm ≠ ys.map bracketNorm := by
          intro hc
          exact hne (by simp [hxy, hc])
        exact comparePathZip_asymm xs ys hab htne ⟨h1, h2⟩
      · rw [if_neg hxy] at h1
        rw [if_neg (fun hc => hxy hc.symm)] at h2
        exact pathElemLt_asymm h1 h2

theorem bracketParse_some_shape {a : String} {m : Nat} (h : bracketParse a = some m) :
    ∃ rest, a.data = '[' :: rest := by
  rw [bracketParse] at h
  split at h
  · next rest heq => exact ⟨rest, heq⟩
  · exact Option.noConfusion h

theorem canonSeg_some_eq {a : String} {m : Nat} (hc : canonSeg a = true)
    (hp : bracketParse a = some m) : a = "[" ++ toString m ++ "]" := by
  rw [canonSeg] at hc
  split at hc
  · split at hc
    · next n heq =>
        rw [hp] at heq
        obtain rfl : m = n := Option.some.inj heq
        exact of_decide_eq_true hc
    · exact Bool.noConfusion hc
  · next hnm =>
      obtain ⟨rest, hd⟩ := bracketParse_some_shape hp
      exact absurd hd (hnm rest)

theorem canonSeg_inj {a b : String} (ha : canonSeg a = true) (hb : canonSeg b = true)
    (hn : bracketNorm a = bracketNorm b) : a = b := by
  cases hpa : bracketParse a with
  | none =>
      cases hpb : bracketParse b with
      | none =>
          rw [bracketNorm, hpa, bracketNorm, hpb] at hn
          exact Sum.inr.inj hn
      | some n =>
          rw [bracketNorm, hpa, bracketNorm, hpb] at hn
          exact Sum.noConfusion hn
  | some m =>
      cases hpb : bracketParse b with
      | none =>
          rw [bracketNorm, hpa, bracketNorm, hpb] at hn
          exact Sum.noConfusion hn
      | some n =>
          rw [bracketNorm, hpa, bracketNorm, hpb] at hn
          obtain rfl : m = n := Sum.inl.inj hn
          rw [canonSeg_some_eq ha hpa, canonSeg_some_eq hb hpb]

theorem canon_map_norm_inj : ∀ a b : List String, a.all canonSeg = true →
    b.all canonSeg = true → a.map bracketNorm = b.map bracketNorm → a = b
  | [], [], _, _, _ => rfl
  | [], _ :: _, _, _, hm => by exact absurd hm (by simp)
  | _ :: _, [], _, _, hm => by exact absurd hm (by simp)
  | x :: xs, y :: ys, ha, hb, hm => by
      simp only [List.all_cons, Bool.and_eq_true] at ha hb
      simp only [List.map_cons, List.cons.injEq] at hm
      rw [canonSeg_inj ha.1 hb.1 hm.1, canon_map_norm_inj xs ys ha.2 hb.2 hm.2]

theorem compare_path_tuples_lt_cases (a b : List String) :
    compare_path_tuples__lt a b = true ↔
      (a.length < b.length ∨ (a.length = b.length ∧ comparePathZip a b = true)) := by
  unfold compare_path_tuples__lt
  split_ifs with h1 h2
  · simp [h1]
  · simp only [false_iff]
    rintro (hc | ⟨hc, _⟩) <;> omega
  · have hlen : a.length = b.length := by omega
    simp [hlen]

/-- C5 counterexample: the distinct paths `("[02]",)` and `("[2]",)` each
compare strictly below the other (both bracket segments parse to the integer
2), so the comparison is not a strict order on distinct paths. -/
theorem path_order_strict_cex :
    compare_path_tuples__lt ["[02]"] ["[2]"] = true ∧
    compare_path_tuples__lt ["[2]"] ["[02]"] = true ∧
    (["[02]"] : List String) ≠ ["[2]"] :=
  ⟨by decide, by decide, by decide⟩

/-- C5 amended: the path comparison orders tuples lexicographically
elementwise with bracket segments compared as integers and shorter tuples
first; it is total and transitive on all paths, and strict on distinct paths
whose bracket segments are canonically spelled (`[n]` with no leading zeros
or signs, as the engine's path builders emit) — two distinct spellings of
the same index, such as `[02]` and `[2]`, compare equal. -/
theorem path_order_amended (a b c : List String) :
    (compare_path_tuples__lt a b = true ∨ compare_path_tuples__lt b a = true) ∧
    (a.all canonSeg = true → b.all canonSeg = true → a ≠ b →
      ¬(compare_path_tuples__lt a b = true ∧ compare_path_tuples__lt b a = true)) ∧
    (compare_path_tuples__lt a b = true → compare_path_tuples__lt b c = true →
      compare_path_tuples__lt a c = true) := by
  refine ⟨?_, ?_, ?_⟩
  · rw [compare_path_tuples_lt_cases, compare_path_tuples_lt_cases]
    rcases Nat.lt_trichotomy a.length b.length with h | h | h
    · exact Or.inl (Or.inl h)
    · rcases comparePathZip_total a b with hz | hz
      · exact Or.inl (Or.inr ⟨h, hz⟩)
      · exact Or.inr (Or.inr ⟨h.symm, hz⟩)
    · exact Or.inr (Or.inl h)
  · intro hca hcb hne ⟨h1, h2⟩
    rw [compare_path_tuples_lt_cases] at h1 h2
    have hmaps : a.map bracketNorm ≠ b.map bracketNorm := by
      intro hc
      exact hne (canon_map_norm_inj a b hca hcb hc)
    rcases h1 with h1 | ⟨hl1, hz1⟩
    · rcases h2 with h2 | ⟨hl2, _⟩ <;> omega
    · rcases h2 with h2 | ⟨_, hz2⟩
      · omega
      · exact comparePathZip_asymm a b hl1 hmaps ⟨hz1, hz2⟩
  · intro h1 h2
    rw [compare_path_tuples_lt_cases] at h1 h2 ⊢
    rcases h1 with h1 | ⟨hl1, hz1⟩
    · rcases h2 with h2 | ⟨hl2, _⟩
      · exact Or.inl (by omega)
      · exact Or.inl (by omega)
    · rcases h2 with h2 | ⟨hl2, hz2⟩
      · exact Or.inl (by omega)
      · exact Or.inr ⟨by omega, comparePathZip_trans a b c hl1 hl2 hz1 hz2⟩

/-- Witness for `path_order_amended`: strictness at the concrete canonical
paths `($, .count, [2])` and `($, .count, [10])`. -/
theorem path_order_amended_witness :
    ¬(compare_path_tuples__lt ["$", ".count", "[2]"] ["$", ".count", "[10]"] = true ∧
      compare_path_tuples__lt ["$", ".count", "[10]"] ["$", ".count", "[2]"] = true) :=
  (path_order_amended ["$", ".count", "[2]"] ["$", ".count", "[10]"] []).2.1
    (by decide) (by decide) (by decide)

/-! ## RequirementState solution caching (src/degreepath/requirement.py) -/

/-- The mutable state of a `RequirementState` (src/degreepath/requirement.py
lines 37-57): the cache `vals`, the not-yet-pulled remainder of the
underlying iterator `iter`, and the `done` flag. -/
structure St (α : Type) where
  vals : List α
  rem : List α
  done : Bool
  deriving DecidableEq, Repr

/-- One live iterator over a `RequirementState`: either the
`chain(self.vals, self._gen_iter())` returned by `iter_solutions` while not
done (`chained i` replays the shared cache at index `i` and then pulls the
shared underlying iterator), a chain that has moved into its `_gen_iter`
phase (`genphase`), the plain `iter(self.vals)` returned once done
(`plainReplay i`), or a finished iterator.  A CPython list iterator that has
raised StopIteration stays exhausted even if the list grows, which is why
`chained` never returns to the cache after switching. -/
inductive IterHandle where
  | chained (i : Nat)
  | genphase
  | plainReplay (i : Nat)
  | exhausted
  deriving DecidableEq, Repr

/-- `RequirementState.iter_solutions` (src/degreepath/requirement.py lines
44-49): `iter(self.vals)` when done, else `chain(self.vals,
self._gen_iter())`. -/
def iter_solutions {α : Type} (s : St α) : IterHandle :=
  if s.done then .plainReplay 0 else .chained 0

/-- One `next(...)` on a live iterator: the yielded element (none on
StopIteration), the advanced iterator, and the new shared state.  The
`chained`/`genphase` gen arms are `_gen_iter` (src/degreepath/requirement.py
lines 51-57): pull the shared `self.iter`, append to `self.vals`, yield; on
exhaustion set `self.done`. -/
def nextElem {α : Type} : IterHandle → St α → Option α × IterHandle × St α
  | .chained i, s =>
      if h : i < s.vals.length then (some s.vals[i], .chained (i + 1), s)
      else
        match s.rem with
        | [] => (none, .exhausted, { s with done := true })
        | x :: xs => (some x, .genphase, { s with vals := s.vals ++ [x], rem := xs })
  | .genphase, s =>
      match s.rem with
      | [] => (none, .exhausted, { s with done := true })
      | x :: xs => (some x, .genphase, { s with vals := s.vals ++ [x], rem := xs })
  | .plainReplay i, s =>
      if h : i < s.vals.length then (some s.vals[i], .plainReplay (i + 1), s)
      else (none, .exhausted, s)
  | .exhausted, s => (none, .exhausted, s)

/-- Termination measure: cache positions left to replay plus elements left to
pull. -/
def iterMeasure {α : Type} : IterHandle → St α → Nat
  | .exhausted, _ => 0
  | .plainReplay i, s => s.vals.length - i + 1
  | .genphase, s => s.rem.length + 1
  | .chained i, s => (s.vals.length - i) + s.rem.length + 2

/-- Run one live iterator to exhaustion (repeating `nextElem`): the list of
elements it observes and the final shared state. -/
def collectS {α : Type} : IterHandle → St α → List α × St α
  | .chained i, s =>
      if h : i < s.vals.length then
        let p := collectS (.chained (i + 1)) s
        (s.vals[i] :: p.1, p.2)
      else
        match hrem : s.rem with
        | [] => ([], { s with done := true })
        | x :: xs =>
            let p := collectS .genphase { s with vals := s.vals ++ [x], rem := xs }
            (x :: p.1, p.2)
  | .genphase, s =>
      match hrem : s.rem with
      | [] => ([], { s with done := true })
      | x :: xs =>
          let p := collectS .genphase { s with vals := s.vals ++ [x], rem := xs }
          (x :: p.1, p.2)
  | .plainReplay i, s =>
      if h : i < s.vals.length then
        let p := collectS (.plainReplay (i + 1)) s
        (s.vals[i] :: p.1, p.2)
      else ([], s)
  | .exhausted, s => ([], s)
termination_by h s => iterMeasure h s
decreasing_by
  all_goals simp_all [iterMeasure]
  all_goals omega

theorem collectS_plainReplay {α : Type} : ∀ (s : St α) (i : Nat),
    collectS (.plainReplay i) s = (s.vals.drop i, s)
  | s, i => by
      rw [collectS]
      split
      · next h =>
          rw [collectS_plainReplay s (i + 1)]
          simp only []
          rw [List.getElem_cons_drop]
      · next h =>
          rw [List.drop_eq_nil_of_le (by omega)]
termination_by s i => s.vals.length - i
decreasing_by omega

theorem collectS_genphase {α : Type} : ∀ (vals rem : List α) (d : Bool),
    collectS .genphase ⟨vals, rem, d⟩ = (rem, ⟨vals ++ rem, [], true⟩)
  | vals, [], d => by
      rw [collectS]
      simp
  | vals, x :: xs, d => by
      rw [collectS]
      simp only []
      rw [collectS_genphase (vals ++ [x]) xs d]
      simp [List.append_assoc]

theorem collectS_chained {α : Type} : ∀ (vals rem : List α) (d : Bool) (i : Nat),
    collectS (.chained i) ⟨vals, rem, d⟩ = (vals.drop i ++ rem, ⟨vals ++ rem, [], true⟩)
  | vals, rem, d, i => by
      rw [collectS]
      split
      · next h =>
          rw [collectS_chained vals rem d (i + 1)]
          simp only []
          rw [← List.cons_append, List.getElem_cons_drop]
      · next h =>
          simp only at h
          have hle : vals.length ≤ i := by omega
          rw [List.drop_eq_nil_of_le hle]
          cases rem with
          | nil => simp
          | cons x xs =>
              simp only []
              rw [collectS_genphase (vals ++ [x]) xs d]
              simp [List.append_assoc]
termination_by vals rem d i => vals.length - i
decreasing_by simp_all; omega

/-- C10 amended: a run-to-exhaustion call of `iter_solutions` on a fresh
state yields exactly the underlying elements in order and caches them all
(the underlying iterator is advanced once per element); once done, every
further call replays the cache unchanged.  (Iterations interleaved with
other live iterations can instead miss elements; see the counterexample.) -/
theorem iter_solutions_amended {α : Type} (xs : List α) (s : St α) :
    collectS (iter_solutions (⟨[], xs, false⟩ : St α)) ⟨[], xs, false⟩ =
      (xs, ⟨xs, [], true⟩) ∧
    (s.done = false →
      collectS (iter_solutions s) s = (s.vals ++ s.rem, ⟨s.vals ++ s.rem, [], true⟩)) ∧
    (s.done = true → collectS (iter_solutions s) s = (s.vals, s)) := by
  refine ⟨?_, ?_, ?_⟩
  · show collectS (.chained 0) (⟨[], xs, false⟩ : St α) = _
    rw [collectS_chained]
    simp
  · obtain ⟨vals, rem, done⟩ := s
    intro h
    simp only at h
    subst h
    show collectS (.chained 0) (⟨vals, rem, false⟩ : St α) = _
    rw [collectS_chained]
    simp
  · obtain ⟨vals, rem, done⟩ := s
    intro h
    simp only at h
    subst h
    show collectS (.plainReplay 0) (⟨vals, rem, true⟩ : St α) = _
    rw [collectS_plainReplay]
    simp

/-- Witness for `iter_solutions_amended`: replay on a finished state. -/
theorem iter_solutions_amended_witness :
    collectS (iter_solutions (⟨[5], [], true⟩ : St Nat)) ⟨[5], [], true⟩ =
      ([5], ⟨[5], [], true⟩) :=
  (iter_solutions_amended ([] : List Nat) ⟨[5], [], true⟩).2.2 rfl

/-- The elements observed by the first iterator in the interleaving
scenario: on the fresh state over `[1, 2]`, iterator A takes one element,
then iterator B (a second `iter_solutions` call) runs to exhaustion, then A
resumes to exhaustion. -/
def interleavedFirstIter : List Nat :=
  let s0 : St Nat := ⟨[], [1, 2], false⟩
  let step := nextElem (iter_solutions s0) s0
  let sB := (collectS (iter_solutions step.2.2) step.2.2).2
  step.1.toList ++ (collectS step.2.1 sB).1

/-- C10 counterexample: with underlying iterable `[1, 2]`, the interleaved
first iterator observes only `[1]` — the second iterator consumed `2` from
the shared underlying iterator while the first was already past its
cache-replay phase — so interleaved iterations do not all observe the
underlying sequence. -/
theorem requirement_state_interleaving_cex :
    interleavedFirstIter = [1] ∧ interleavedFirstIter ≠ [1, 2] := by
  have hstep : nextElem (iter_solutions (⟨[], [1, 2], false⟩ : St Nat)) ⟨[], [1, 2], false⟩ =
      (some 1, .genphase, ⟨[1], [2], false⟩) := rfl
  have hB : collectS (iter_solutions (⟨[1], [2], false⟩ : St Nat)) ⟨[1], [2], false⟩ =
      ([1, 2], ⟨[1, 2], [], true⟩) := by
    show collectS (.chained 0) (⟨[1], [2], false⟩ : St Nat) = _
    rw [collectS_chained]
    rfl
  have hA : collectS .genphase (⟨[1, 2], [], true⟩ : St Nat) = ([], ⟨[1, 2], [], true⟩) := by
    rw [collectS_genphase]
    rfl
  have h : interleavedFirstIter = [1] := by
    show (nextElem (iter_solutions (⟨[], [1, 2], false⟩ : St Nat)) ⟨[], [1, 2], false⟩).1.toList ++
        (collectS
          (nextElem (iter_solutions (⟨[], [1, 2], false⟩ : St Nat)) ⟨[], [1, 2], false⟩).2.1
          (collectS
            (iter_solutions
              (nextElem (iter_solutions (⟨[], [1, 2], false⟩ : St Nat))
                ⟨[], [1, 2], false⟩).2.2)
            (nextElem (iter_solutions (⟨[], [1, 2], false⟩ : St Nat))
              ⟨[], [1, 2], false⟩).2.2).2).1 = [1]
    rw [hstep]
    simp only
    rw [hB]
    simp only
    rw [hA]
    rfl
  exact ⟨h, by rw [h]; decide⟩

/-! ## Limit engine (src/dp/limit.py) -/

/-- The slice of `CourseInstance` (src/dp/data/course.py is not in the
source tree) that the limit engine reads: the stable id, the credits
decimal, and the `sort_order()` key standing for `(year, term, clbid)`. -/
structure Course where
  clbid : Nat
  credits : Rat
  sortKey : Nat
  deriving DecidableEq, Repr

/-- `AtMostWhat` (src/dp/limit.py lines 26-29). -/
inductive AtMostWhat where
  | Courses
  | Credits
  deriving DecidableEq, Repr

/-- `Limit` (src/dp/limit.py lines 32-37): the cap, its unit, and the
where-predicate (`self.where.apply`, kept abstract as a boolean function on
courses). -/
structure Limit where
  at_most : Rat
  at_most_what : AtMostWhat
  whereP : Course → Bool

/-- Python `int(...)` on a decimal: truncation toward zero. -/
def pyTruncInt (q : Rat) : Int :=
  if q < 0 then -((-q).floor) else q.floor

/-- `itertools.combinations(xs, n)`: all `n`-element sublists of `xs` in
order. -/
def combinations {α : Type} : Nat → List α → List (List α)
  | 0, _ => [[]]
  | _ + 1, [] => []
  | n + 1, x :: xs => (combinations n xs).map (fun c => x :: c) ++ combinations (n + 1) xs

/-- `sorted(courses, key=lambda item: item.sort_order())`: a stable sort by
the sort key. -/
def sortCourses (courses : List Course) : List Course :=
  List.insertionSort (fun a b => a.sortKey ≤ b.sortKey) courses

/-- `Limit.iterate_courses` (src/dp/limit.py lines 93-98): every combination
of `0 … int(at_most)` courses. -/
def Limit.iterate_courses (l : Limit) (courses : List Course) : List (List Course) :=
  (List.range (pyTruncInt l.at_most + 1).toNat).flatMap (fun n => combinations n courses)

/-- `Limit.iterate_credits` (src/dp/limit.py lines 100-110): the whole list
when its credits fit the cap, else every combination whose credits fit. -/
def Limit.iterate_credits (l : Limit) (courses : List Course) : List (List Course) :=
  if (courses.map Course.credits).sum ≤ l.at_most then [courses]
  else
    (List.range (courses.length + 1)).flatMap
      (fun n => (combinations n courses).filter
        (fun combo => decide ((combo.map Course.credits).sum ≤ l.at_most)))

/-- `Limit.iterate` (src/dp/limit.py lines 80-91): sort the input, then
dispatch on the unit. -/
def Limit.iterate (l : Limit) (courses : List Course) : List (List Course) :=
  match l.at_most_what with
  | .Courses => l.iterate_courses (sortCourses courses)
  | .Credits => l.iterate_credits (sortCourses courses)

/-- `LimitSet` (src/dp/limit.py lines 126-128). -/
structure LimitSet where
  limits : List Limit

/-- The inner loop of `LimitSet.check` (src/dp/limit.py lines 170-181) for
one course: walk the limits with their counters; on a matching limit whose
counter already reached the cap return `none` (check returns False), else
bump the counter by 1 (Courses) or by the course's credits (Credits). -/
def checkStep (c : Course) : List Limit → List Rat → Option (List Rat)
  | [], _ => some []
  | _ :: _, [] => some []
  | l :: ls, k :: ks =>
      if l.whereP c then
        if l.at_most ≤ k then none
        else
          match checkStep c ls ks with
          | none => none
          | some ks2 =>
              some ((k + (match l.at_most_what with
                | AtMostWhat.Courses => 1
                | AtMostWhat.Credits => c.credits)) :: ks2)
      else
        match checkStep c ls ks with
        | none => none
        | some ks2 => some (k :: ks2)

/-- The outer loop of `LimitSet.check` (src/dp/limit.py lines 166-183) over
the courses, threading the counters. -/
def checkGo : List Limit → List Rat → List Course → Bool
  | _, _, [] => true
  | ls, ks, c :: cs =>
      match checkStep c ls ks with
      | none => false
      | some ks2 => checkGo ls ks2 cs

/-- `LimitSet.check` (src/dp/limit.py lines 166-183): counters start at
`defaultdict(Decimal)`, i.e. 0 per limit. -/
def LimitSet.check (S : LimitSet) (courses : List Course) : Bool :=
  checkGo S.limits (S.limits.map (fun _ => (0 : Rat))) courses

/-- Modelled from the spec: `lazy_product` (src/dp/lazy_product.py is not in
the source tree); §4.3 calls it a lazy cartesian iterator over the per-limit
combination iterators, in `itertools.product` order (first iterator slowest).
-/
def lazy_product {α : Type} : List (List α) → List (List α)
  | [] => [[]]
  | xs :: rest => xs.flatMap (fun x => (lazy_product rest).map (fun r => x :: r))

/-- `matched_items[limit]` (src/dp/limit.py lines 219-228, with no forced
clbids): the set of input courses matching the limit's where-predicate
(a Python set, determinized here as a deduplicated list). -/
def matchSet (courses : List Course) (l : Limit) : List Course :=
  (courses.filter l.whereP).dedup

/-- `unmatched_items` (src/dp/limit.py lines 230-231): the input courses
matching no limit. -/
def unmatchedItems (S : LimitSet) (courses : List Course) : List Course :=
  courses.dedup.filter (fun c => !(S.limits.any (fun l => l.whereP c)))

/-- `this_combo.sort(key=methodcaller('sort_order'))` (src/dp/limit.py line
256). -/
def sortCombo (cs : List Course) : List Course :=
  List.insertionSort (fun a b => a.sortKey ≤ b.sortKey) cs

/-- The emission loop of `limited_transcripts` (src/dp/limit.py lines
241-259): for each tuple of per-limit combinations, form the union
`these_items` (a frozenset, determinized as a deduplicated list), drop it if
`check` rejects it or if its set was already emitted, else emit the sorted
union with the unmatched courses. -/
def emitLoop (S : LimitSet) (unmatched : List Course) :
    List (List (List Course)) → List (Finset Course) → List (List Course)
  | [], _ => []
  | results :: rest, emitted =>
      let these := results.flatten.dedup
      if S.check these = false then emitLoop S unmatched rest emitted
      else if these.toFinset ∈ emitted then emitLoop S unmatched rest emitted
      else sortCombo (unmatched ++ these) :: emitLoop S unmatched rest (these.toFinset :: emitted)

/-- `LimitSet.limited_transcripts` (src/dp/limit.py lines 185-259, with no
forced clbids): with no limits, yield the input whole; else build the
per-limit match sets (in limit order, keeping only limits some course
matches, as the `defaultdict` does), cross their `iterate` streams, and emit
each checked, unseen combination joined with the unmatched courses. -/
def LimitSet.limited_transcripts (S : LimitSet) (courses : List Course) :
    List (List Course) :=
  match S.limits with
  | [] => [courses]
  | _ :: _ =>
      let actives := S.limits.filter (fun l => !(matchSet courses l).isEmpty)
      let clause_iterators := actives.map (fun l => l.iterate (matchSet courses l))
      emitLoop S (unmatchedItems S courses) (lazy_product clause_iterators) []

/-- The counting of `LimitSet.check` restricted to a single limit: walk the
courses, bump the counter on a match, fail when a match finds the counter
already at the cap. -/
def check1 (l : Limit) : Rat → List Course → Bool
  | _, [] => true
  | k, c :: cs =>
      if l.whereP c then
        if l.at_most ≤ k then false
        else check1 l (k + (match l.at_most_what with
          | AtMostWhat.Courses => 1
          | AtMostWhat.Credits => c.credits)) cs
      else check1 l k cs

theorem checkGo_cons (l : Limit) (ls : List Limit) :
    ∀ (cs : List Course) (k : Rat) (ks : List Rat),
    checkGo (l :: ls) (k :: ks) cs = (check1 l k cs && checkGo ls ks cs)
  | [], k, ks => by
      rfl
  | c :: cs, k, ks => by
      rw [checkGo, checkStep, check1]
      by_cases hw : l.whereP c = true
      · rw [if_pos hw, if_pos hw]
        by_cases hov : l.at_most ≤ k
        · rw [if_pos hov, if_pos hov]
          rfl
        · rw [if_neg hov, if_neg hov]
          cases hs : checkStep c ls ks with
          | none =>
              have hgo : checkGo ls ks (c :: cs) = false := by
                rw [checkGo, hs]
              rw [hgo, Bool.and_false]
          | some ks2 =>
              have hgo : checkGo ls ks (c :: cs) = checkGo ls ks2 cs := by
                rw [checkGo, hs]
              rw [hgo]
              exact checkGo_cons l ls cs _ ks2
      · rw [if_neg hw, if_neg hw]
        cases hs : checkStep c ls ks with
        | none =>
            have hgo : checkGo ls ks (c :: cs) = false := by
              rw [checkGo, hs]
            rw [hgo, Bool.and_false]
        | some ks2 =>
            have hgo : checkGo ls ks (c :: cs) = checkGo ls ks2 cs := by
              rw [checkGo, hs]
            rw [hgo]
            exact checkGo_cons l ls cs k ks2

theorem checkGo_nil : ∀ cs : List Course, checkGo [] [] cs = true
  | [] => rfl
  | _ :: cs => checkGo_nil cs

theorem checkGo_zeros : ∀ (ls : List Limit) (cs : List Course),
    checkGo ls (ls.map fun _ => (0 : Rat)) cs = true ↔ ∀ l ∈ ls, check1 l 0 cs = true
  | [], cs => by
      rw [List.map_nil, checkGo_nil cs]
      simp
  | l :: ls, cs => by
      rw [List.map_cons, checkGo_cons, Bool.and_eq_true, checkGo_zeros ls cs]
      simp

/-- `LimitSet.check` succeeds exactly when each limit's own count of the
course list never overflows. -/
theorem check_iff_all (S : LimitSet) (cs : List Course) :
    S.check cs = true ↔ ∀ l ∈ S.limits, check1 l 0 cs = true :=
  checkGo_zeros S.limits cs

theorem check1_courses (l : Limit) (hu : l.at_most_what = .Courses) :
    ∀ (cs : List Course) (k : Rat), check1 l k cs = true →
      cs.countP l.whereP = 0 ∨ ((cs.countP l.whereP : Rat) + k < l.at_most + 1)
  | [], k, _ => Or.inl (by simp)
  | c :: cs, k, h => by
      rw [check1] at h
      by_cases hw : l.whereP c = true
      · rw [if_pos hw] at h
        by_cases hov : l.at_most ≤ k
        · rw [if_pos hov] at h
          exact Bool.noConfusion h
        · rw [if_neg hov, hu] at h
          have hlt : k < l.at_most := lt_of_not_le hov
          have hc : (c :: cs).countP l.whereP = cs.countP l.whereP + 1 := by
            simp [List.countP_cons, hw]
          rcases check1_courses l hu cs (k + 1) h with h0 | hb
          · refine Or.inr ?_
            rw [hc, h0]
            push_cast
            linarith
          · refine Or.inr ?_
            rw [hc]
            push_cast
            push_cast at hb
            linarith
      · rw [if_neg hw] at h
        have hc : (c :: cs).countP l.whereP = cs.countP l.whereP := by
          simp [List.countP_cons, hw]
        rw [hc]
        exact check1_courses l hu cs k h

theorem check1_credits (l : Limit) (hu : l.at_most_what = .Credits) :
    ∀ (cs : List Course) (k : Rat), check1 l k cs = true →
      cs.filter l.whereP = [] ∨
        ∃ c ∈ cs.filter l.whereP,
          ((cs.filter l.whereP).map Course.credits).sum - c.credits + k < l.at_most
  | [], k, _ => Or.inl rfl
  | c :: cs, k, h => by
      rw [check1] at h
      by_cases hw : l.whereP c = true
      · rw [if_pos hw] at h
        by_cases hov : l.at_most ≤ k
        · rw [if_pos hov] at h
          exact Bool.noConfusion h
        · rw [if_neg hov, hu] at h
          have hlt : k < l.at_most := lt_of_not_le hov
          have hf : (c :: cs).filter l.whereP = c :: cs.filter l.whereP := by
            rw [List.filter_cons_of_pos hw]
          rcases check1_credits l hu cs (k + c.credits) h with h0 | ⟨d, hd, hb⟩
          · refine Or.inr ⟨c, ?_, ?_⟩
            · rw [hf, h0]
              exact List.mem_singleton.mpr rfl
            · rw [hf, h0]
              simp
              linarith
          · refine Or.inr ⟨d, ?_, ?_⟩
            · rw [hf]
              exact List.mem_cons_of_mem c hd
            · rw [hf]
              simp only [List.map_cons, List.sum_cons]
              linarith
      · rw [if_neg hw] at h
        have hf : (c :: cs).filter l.whereP = cs.filter l.whereP := by
          rw [List.filter_cons_of_neg (by simp [hw])]
        rw [hf]
        exact check1_credits l hu cs k h

theorem mem_combinations_subset {α : Type} :
    ∀ (n : Nat) (xs c : List α), c ∈ combinations n xs → ∀ x ∈ c, x ∈ xs
  | 0, xs, c, hc => by
      rw [combinations, List.mem_singleton] at hc
      subst hc
      intro x hx
      exact absurd hx (List.not_mem_nil x)
  | n + 1, [], c, hc => absurd hc (List.not_mem_nil c)
  | n + 1, y :: ys, c, hc => by
      rw [combinations, List.mem_append] at hc
      rcases hc with hc | hc
      · obtain ⟨c2, hc2, rfl⟩ := List.mem_map.mp hc
        intro x hx
        rcases List.mem_cons.mp hx with rfl | hx
        · exact List.mem_cons_self x ys
        · exact List.mem_cons_of_mem y (mem_combinations_subset n ys c2 hc2 x hx)
      · intro x hx
        exact List.mem_cons_of_mem y (mem_combinations_subset (n + 1) ys c hc x hx)

theorem mem_iterate_subset (l : Limit) (s g : List Course) (hg : g ∈ l.iterate s) :
    ∀ x ∈ g, x ∈ s := by
  have hperm : ∀ x ∈ sortCourses s, x ∈ s := by
    intro x hx
    exact (List.perm_insertionSort _ s).subset hx
  rw [Limit.iterate] at hg
  intro x hx
  split at hg
  · rw [Limit.iterate_courses] at hg
    obtain ⟨n, _, hcomb⟩ := List.mem_flatMap.mp hg
    exact hperm x (mem_combinations_subset n (sortCourses s) g hcomb x hx)
  · rw [Limit.iterate_credits] at hg
    split at hg
    · rw [List.mem_singleton] at hg
      subst hg
      exact hperm x hx
    · obtain ⟨n, _, hf⟩ := List.mem_flatMap.mp hg
      have hcomb := List.mem_of_mem_filter hf
      exact hperm x (mem_combinations_subset n (sortCourses s) g hcomb x hx)

theorem mem_lazy_product_flatten {α : Type} :
    ∀ (Ls : List (List (List α))) (rs : List (List α)), rs ∈ lazy_product Ls →
      ∀ x ∈ rs.flatten, ∃ L ∈ Ls, ∃ g ∈ L, x ∈ g
  | [], rs, hrs => by
      rw [lazy_product, List.mem_singleton] at hrs
      subst hrs
      intro x hx
      exact absurd hx (List.not_mem_nil x)
  | L :: rest, rs, hrs => by
      rw [lazy_product] at hrs
      obtain ⟨g, hgL, hmap⟩ := List.mem_flatMap.mp hrs
      obtain ⟨rs2, hrs2, rfl⟩ := List.mem_map.mp hmap
      intro x hx
      rw [List.flatten_cons, List.mem_append] at hx
      rcases hx with hx | hx
      · exact ⟨L, List.mem_cons_self L rest, g, hgL, hx⟩
      · obtain ⟨L2, hL2, hrest⟩ := mem_lazy_product_flatten rest rs2 hrs2 x hx
        exact ⟨L2, List.mem_cons_of_mem L hL2, hrest⟩

theorem mem_emitLoop (S : LimitSet) (u : List Course) :
    ∀ (rest : List (List (List Course))) (emitted : List (Finset Course))
      (t : List Course), t ∈ emitLoop S u rest emitted →
    ∃ these, S.check these = true ∧ these.toFinset ∉ emitted ∧
      t = sortCombo (u ++ these) ∧ ∃ results ∈ rest, these = results.flatten.dedup
  | [], emitted, t, ht => absurd ht (List.not_mem_nil t)
  | results :: rest, emitted, t, ht => by
      rw [emitLoop] at ht
      by_cases hchk : S.check results.flatten.dedup = false
      · simp only [hchk, if_pos] at ht
        obtain ⟨these, h1, h2, h3, rr, hrr, h4⟩ := mem_emitLoop S u rest emitted t ht
        exact ⟨these, h1, h2, h3, rr, List.mem_cons_of_mem results hrr, h4⟩
      · simp only [hchk, if_neg, if_false] at ht
        by_cases hseen : results.flatten.dedup.toFinset ∈ emitted
        · rw [if_pos hseen] at ht
          obtain ⟨these, h1, h2, h3, rr, hrr, h4⟩ := mem_emitLoop S u rest emitted t ht
          exact ⟨these, h1, h2, h3, rr, List.mem_cons_of_mem results hrr, h4⟩
        · rw [if_neg hseen] at ht
          rcases List.mem_cons.mp ht with rfl | ht
          · exact ⟨results.flatten.dedup, Bool.not_eq_false _ ▸ hchk, hseen, rfl,
              results, List.mem_cons_self results rest, rfl⟩
          · obtain ⟨these, h1, h2, h3, rr, hrr, h4⟩ :=
              mem_emitLoop S u rest (results.flatten.dedup.toFinset :: emitted) t ht
            refine ⟨these, h1, fun hc => h2 (List.mem_cons_of_mem _ hc), h3,
              rr, List.mem_cons_of_mem results hrr, h4⟩

theorem emitLoop_key (S : LimitSet) (u these : List Course)
    (hu : ∀ c ∈ u, S.limits.any (fun l => l.whereP c) = false)
    (hthese : ∀ c ∈ these, S.limits.any (fun l => l.whereP c) = true) :
    (sortCombo (u ++ these)).toFinset.filter
        (fun c => S.limits.any (fun l => l.whereP c) = true) = these.toFinset := by
  have htf : (sortCombo (u ++ these)).toFinset = (u ++ these).toFinset :=
    List.toFinset_eq_of_perm _ _ (List.perm_insertionSort _ _)
  rw [htf, List.toFinset_append, Finset.filter_union]
  have h1 : u.toFinset.filter (fun c => S.limits.any (fun l => l.whereP c) = true) = ∅ :=
    Finset.filter_false_of_mem (fun c hc => by
      rw [hu c (List.mem_toFinset.mp hc)]
      exact Bool.noConfusion)
  have h2 : these.toFinset.filter (fun c => S.limits.any (fun l => l.whereP c) = true) =
      these.toFinset :=
    Finset.filter_true_of_mem (fun c hc => hthese c (List.mem_toFinset.mp hc))
  rw [h1, h2, Finset.empty_union]

theorem emitLoop_key_not_mem (S : LimitSet) (u : List Course)
    (hu : ∀ c ∈ u, S.limits.any (fun l => l.whereP c) = false)
    (rest : List (List (List Course)))
    (hrest : ∀ r ∈ rest, ∀ x ∈ r.flatten, S.limits.any (fun l => l.whereP x) = true)
    (emitted : List (Finset Course)) (t : List Course)
    (ht : t ∈ emitLoop S u rest emitted) :
    t.toFinset.filter (fun c => S.limits.any (fun l => l.whereP c) = true) ∉ emitted := by
  obtain ⟨these, _, hnot, rfl, results, hres, hth⟩ := mem_emitLoop S u rest emitted t ht
  have hthese : ∀ c ∈ these, S.limits.any (fun l => l.whereP c) = true := by
    intro c hc
    rw [hth] at hc
    exact hrest results hres c (List.mem_dedup.mp hc)
  rw [emitLoop_key S u these hu hthese]
  exact hnot

theorem emitLoop_pairwise (S : LimitSet) (u : List Course)
    (hu : ∀ c ∈ u, S.limits.any (fun l => l.whereP c) = false) :
    ∀ (rest : List (List (List Course))),
    (∀ r ∈ rest, ∀ x ∈ r.flatten, S.limits.any (fun l => l.whereP x) = true) →
    ∀ emitted : List (Finset Course),
    (emitLoop S u rest emitted).Pairwise (fun a b => a.toFinset ≠ b.toFinset)
  | [], _, emitted => List.Pairwise.nil
  | results :: rest, hrest, emitted => by
      have hrest2 : ∀ r ∈ rest, ∀ x ∈ r.flatten,
          S.limits.any (fun l => l.whereP x) = true :=
        fun r hr => hrest r (List.mem_cons_of_mem results hr)
      rw [emitLoop]
      by_cases hchk : S.check results.flatten.dedup = false
      · simp only [hchk, if_pos]
        exact emitLoop_pairwise S u hu rest hrest2 emitted
      · simp only [hchk, if_neg, if_false]
        by_cases hseen : results.flatten.dedup.toFinset ∈ emitted
        · rw [if_pos hseen]
          exact emitLoop_pairwise S u hu rest hrest2 emitted
        · rw [if_neg hseen]
          refine List.Pairwise.cons ?_ (emitLoop_pairwise S u hu rest hrest2 _)
          intro t ht heq
          have hthese0 : ∀ c ∈ results.flatten.dedup,
              S.limits.any (fun l => l.whereP c) = true := by
            intro c hc
            exact hrest results (List.mem_cons_self results rest) c (List.mem_dedup.mp hc)
          have hkey0 := emitLoop_key S u results.flatten.dedup hu hthese0
          have hkeyt := emitLoop_key_not_mem S u hu rest hrest2
            (results.flatten.dedup.toFinset :: emitted) t ht
          rw [← heq, hkey0] at hkeyt
          exact hkeyt (List.mem_cons_self _ _)

/-- C1 amended: every tuple yielded by `limited_transcripts` satisfies, for
each Courses limit, that no course matches or fewer than `at_most + 1`
courses match (i.e. at most `at_most` for integral caps), and for each
Credits limit, that no course matches or some matching course's removal
brings the matching credits total strictly below `at_most` (the total
itself may exceed the cap by at most that course's credits); any two yielded
tuples are distinct as sets; and with no limits exactly one tuple is
yielded, the full input collection. -/
theorem limited_transcripts_amended (S : LimitSet) (courses : List Course) :
    (∀ t ∈ S.limited_transcripts courses, ∀ l ∈ S.limits,
      (l.at_most_what = .Courses →
        t.countP l.whereP = 0 ∨ ((t.countP l.whereP : Rat) < l.at_most + 1)) ∧
      (l.at_most_what = .Credits →
        t.filter l.whereP = [] ∨
          ∃ c ∈ t.filter l.whereP,
            ((t.filter l.whereP).map Course.credits).sum - c.credits < l.at_most)) ∧
    (S.limited_transcripts courses).Pairwise (fun a b => a.toFinset ≠ b.toFinset) ∧
    (S.limits = [] → S.limited_transcripts courses = [courses]) := by
  obtain ⟨limits⟩ := S
  cases limits with
  | nil =>
      refine ⟨?_, ?_, fun _ => rfl⟩
      · intro t _ l hl
        exact absurd hl (List.not_mem_nil l)
      · exact List.pairwise_singleton _ courses
  | cons l0 ls =>
      have hu : ∀ c ∈ unmatchedItems ⟨l0 :: ls⟩ courses,
          (l0 :: ls).any (fun l => l.whereP c) = false := by
        intro c hc
        have := (List.mem_filter.mp hc).2
        rwa [Bool.not_eq_true'] at this
      have hrest : ∀ r ∈ lazy_product (((l0 :: ls).filter
            (fun l => !(matchSet courses l).isEmpty)).map
            (fun l => l.iterate (matchSet courses l))),
          ∀ x ∈ r.flatten, (l0 :: ls).any (fun l => l.whereP x) = true := by
        intro r hr x hx
        obtain ⟨L, hL, g, hgL, hxg⟩ := mem_lazy_product_flatten _ r hr x hx
        obtain ⟨l2, hl2, rfl⟩ := List.mem_map.mp hL
        have hl2m : l2 ∈ l0 :: ls := List.mem_of_mem_filter hl2
        have hxm : x ∈ matchSet courses l2 := mem_iterate_subset l2 _ g hgL x hxg
        have hw : l2.whereP x = true := List.of_mem_filter (List.mem_dedup.mp hxm)
        exact List.any_eq_true.mpr ⟨l2, hl2m, hw⟩
      have hrw : LimitSet.limited_transcripts ⟨l0 :: ls⟩ courses =
          emitLoop ⟨l0 :: ls⟩ (unmatchedItems ⟨l0 :: ls⟩ courses)
            (lazy_product (((l0 :: ls).filter (fun l => !(matchSet courses l).isEmpty)).map
              (fun l => l.iterate (matchSet courses l)))) [] := rfl
      refine ⟨?_, ?_, fun h => absurd h (List.cons_ne_nil l0 ls)⟩
      · intro t ht l hl
        rw [hrw] at ht
        obtain ⟨these, hchk, _, rfl, results, hres, hth⟩ :=
          mem_emitLoop _ _ _ _ _ ht
        have hch1 := (check_iff_all ⟨l0 :: ls⟩ these).mp hchk l hl
        have hperm : List.Perm (sortCombo (unmatchedItems ⟨l0 :: ls⟩ courses ++ these))
            (unmatchedItems ⟨l0 :: ls⟩ courses ++ these) :=
          List.perm_insertionSort _ _
        have huw : ∀ c ∈ unmatchedItems ⟨l0 :: ls⟩ courses, l.whereP c = false := by
          intro c hc
          have hany := hu c hc
          rw [List.any_eq_false] at hany
          have := hany l hl
          rwa [Bool.not_eq_true] at this
        constructor
        · intro hcourses
          have hcount : (sortCombo (unmatchedItems ⟨l0 :: ls⟩ courses ++ these)).countP
              l.whereP = these.countP l.whereP := by
            rw [hperm.countP_eq, List.countP_append]
            have h0 : (unmatchedItems ⟨l0 :: ls⟩ courses).countP l.whereP = 0 := by
              rw [List.countP_eq_zero]
              intro c hc
              rw [huw c hc]
              exact Bool.noConfusion
            rw [h0, Nat.zero_add]
          rcases check1_courses l hcourses these 0 hch1 with h0 | hb
          · exact Or.inl (by rw [hcount, h0])
          · refine Or.inr ?_
            rw [hcount]
            rw [add_zero] at hb
            exact hb
        · intro hcredits
          have hfilt : List.Perm
              ((sortCombo (unmatchedItems ⟨l0 :: ls⟩ courses ++ these)).filter l.whereP)
              (these.filter l.whereP) := by
            have h1 := hperm.filter l.whereP
            rw [List.filter_append] at h1
            have h0 : (unmatchedItems ⟨l0 :: ls⟩ courses).filter l.whereP = [] := by
              rw [List.filter_eq_nil]
              intro c hc
              rw [huw c hc]
              exact Bool.noConfusion
            rwa [h0, List.nil_append] at h1
          rcases check1_credits l hcredits these 0 hch1 with h0 | ⟨c, hc, hb⟩
          · refine Or.inl ?_
            rw [h0] at hfilt
            exact hfilt.eq_nil
          · refine Or.inr ⟨c, hfilt.mem_iff.mpr hc, ?_⟩
            rw [(hfilt.map Course.credits).sum_eq]
            rw [add_zero] at hb
            exact hb
      · rw [hrw]
        exact emitLoop_pairwise ⟨l0 :: ls⟩ _ hu _ hrest []

/-- A five-credit course. -/
def cexCourse : Course := ⟨0, 5, 0⟩

/-- A Credits limit of at most 2 credits matching every course. -/
def cexCreditsLimit : Limit := ⟨2, .Credits, fun _ => true⟩

/-- A Courses limit of at most 1 course matching every course. -/
def cexCoursesLimit : Limit := ⟨1, .Courses, fun _ => true⟩

theorem limited_transcripts_cex_eval :
    (LimitSet.mk [cexCreditsLimit, cexCoursesLimit]).limited_transcripts [cexCourse] =
      [[], [cexCourse]] := by
  have hiter1 : cexCreditsLimit.iterate [cexCourse] = [[]] := by
    rw [Limit.iterate]
    norm_num [Limit.iterate_credits, sortCourses, List.insertionSort, cexCreditsLimit,
      cexCourse, combinations, List.range_succ]
  show emitLoop ⟨[cexCreditsLimit, cexCoursesLimit]⟩
      (unmatchedItems ⟨[cexCreditsLimit, cexCoursesLimit]⟩ [cexCourse])
      (lazy_product
        (([cexCreditsLimit, cexCoursesLimit].filter
          (fun l => !(matchSet [cexCourse] l).isEmpty)).map
          (fun l => l.iterate (matchSet [cexCourse] l)))) [] = [[], [cexCourse]]
  rw [show ([cexCreditsLimit, cexCoursesLimit].filter
        (fun l => !(matchSet [cexCourse] l).isEmpty)).map
        (fun l => l.iterate (matchSet [cexCourse] l)) =
      [cexCreditsLimit.iterate [cexCourse], cexCoursesLimit.iterate [cexCourse]] from rfl,
    hiter1, show cexCoursesLimit.iterate [cexCourse] = [[], [cexCourse]] from rfl]
  rfl

/-- C1 counterexample: with a Credits limit of at most 2 (matching every
course) and a Courses limit of at most 1 (also matching every course), the
five-credit course is yielded by `limited_transcripts` in a tuple whose
matching credits total 5 > 2 — the yielded tuple does not keep the total
credits of matching courses within the Credits limit's cap. -/
theorem limited_transcripts_credits_cex :
    [cexCourse] ∈ (LimitSet.mk [cexCreditsLimit, cexCoursesLimit]).limited_transcripts
      [cexCourse] ∧
    cexCreditsLimit ∈ (LimitSet.mk [cexCreditsLimit, cexCoursesLimit]).limits ∧
    cexCreditsLimit.at_most_what = AtMostWhat.Credits ∧
    ¬((([cexCourse].filter cexCreditsLimit.whereP).map Course.credits).sum ≤
      cexCreditsLimit.at_most) := by
  refine ⟨?_, List.mem_cons_self _ _, rfl, ?_⟩
  · rw [limited_transcripts_cex_eval]
    exact List.mem_cons_of_mem _ (List.mem_cons_self _ _)
  · show ¬((([cexCourse] : List Course).map Course.credits).sum ≤ cexCreditsLimit.at_most)
    norm_num [cexCourse, cexCreditsLimit]

/-- Witness for `limited_transcripts_amended`: with no limits, the single
yielded tuple is the whole input. -/
theorem limited_transcripts_amended_witness :
    (LimitSet.mk []).limited_transcripts [cexCourse] = [[cexCourse]] :=
  (limited_transcripts_amended ⟨[]⟩ [cexCourse]).2.2 rfl
